import Mathlib

/-!
Verification of the Diffie–Hellman exchange engine (`src/lib.rs`).

The Rust code works on `u32` values.  Following the specification's
stipulation that the faithful semantics of `base.pow(exponent)` is
fixed-width wraparound ("a faithful port reproduces this wraparound"),
unsigned 32-bit arithmetic is embedded into `Nat` with an explicit
`% 2 ^ 32` at every operation that can overflow: the four `pow` call
sites and the `i * i` loop guard of the primality test.  Fallible
operations return `Except DHError _`, mirroring
`Result<_, Box<dyn Error>>` carrying a `DHError`.
-/

/-- Error kind of the exchange engine, from `enum DHError` in the source.
The specification names these `InvalidModulus`, `InvalidGenerator` and
`PublicValueMissing` respectively. -/
inductive DHError where
  | SecretNotComputed : DHError
  | InvalidP : DHError
  | InvalidG : DHError
deriving DecidableEq

/-- Decidable equality of `Except` results, so that concrete runs of the
engine can be settled by `decide`. -/
instance {ε α : Type} [DecidableEq ε] [DecidableEq α] : DecidableEq (Except ε α) := fun
  | .ok a, .ok b =>
    if h : a = b then .isTrue (by rw [h]) else .isFalse (fun hc => h (Except.ok.inj hc))
  | .ok _, .error _ => .isFalse Except.noConfusion
  | .error _, .ok _ => .isFalse Except.noConfusion
  | .error e, .error f =>
    if h : e = f then .isTrue (by rw [h]) else .isFalse (fun hc => h (Except.error.inj hc))

/-- The exchange state, from `struct DiffieHellman`: prime modulus `p`,
generator `g`, and the two optional public values `x` (party A) and
`y` (party B). -/
structure DiffieHellman where
  p : Nat
  g : Nat
  x : Option Nat
  y : Option Nat
deriving DecidableEq

namespace DiffieHellman

/-- Constructor `DiffieHellman::new`: stores `p` and `g`, both public
values start absent. -/
def new (p g : Nat) : DiffieHellman :=
  { p := p, g := g, x := none, y := none }

/-- The trial-division loop of `is_prime`:
`while i*i <= number { if number % i == 0 { return Err(InvalidP) } i += 1 }
 return Ok(())`.
The `u32` product `i * i` wraps, hence the explicit `% 2 ^ 32` in the
guard.  The loop variable `i` is paired with a structural counter
`fuel`; the loop is entered at `i = 2`, `fuel = n - 2`, so `fuel + i = n`
throughout.  The `.ok ()` answer in the exhausted-counter branch is
unreachable from that entry: the counter runs out exactly at `i = n`,
where `n % i = 0` has already returned an error. -/
def isPrimeLoop (n : Nat) : Nat → Nat → Except DHError Unit
  | i, 0 =>
    if i * i % 2 ^ 32 ≤ n then
      if n % i = 0 then .error .InvalidP
      else .ok ()
    else .ok ()
  | i, fuel + 1 =>
    if i * i % 2 ^ 32 ≤ n then
      if n % i = 0 then .error .InvalidP
      else isPrimeLoop n (i + 1) fuel
    else .ok ()

/-- Primality check `DiffieHellman::is_prime`: `0` and `1` are rejected,
`2` is accepted, and any other `n` is handed to the trial-division
loop starting at `i = 2`. -/
def is_prime (number : Nat) : Except DHError Unit :=
  match number with
  | 0 => .error .InvalidP
  | 1 => .error .InvalidP
  | 2 => .ok ()
  | _ => isPrimeLoop number 2 (number - 2)

/-- Body of the `for i in 1..prime` loop of `is_primitive_root`, with the
remaining loop indices made explicit as a list.  For each index `i` the
value `i.pow(g) % prime` is computed (`pow` wraps at `2 ^ 32`); if it was
already seen the loop returns `Err(InvalidG)` at once, otherwise the
value is recorded and the loop continues.  The `HashSet` of the source is
modelled by the list of recorded values, queried only through
membership. -/
def primRootGo (p g : Nat) : List Nat → List Nat → Except DHError Unit
  | _, [] => .ok ()
  | res, i :: rest =>
    if res.contains (i ^ g % 2 ^ 32 % p) then .error .InvalidG
    else primRootGo p g (i ^ g % 2 ^ 32 % p :: res) rest

/-- Primitive-root check `DiffieHellman::is_primitive_root`: runs the
collision-detecting loop over the indices `1, 2, …, p - 1` with an
empty set of seen values. -/
def is_primitive_root (p g : Nat) : Except DHError Unit :=
  primRootGo p g [] (List.range' 1 (p - 1))

/-- Parameter validation `DiffieHellman::is_valid`: `is_prime(p)?` then
`is_primitive_root(p, g)?`, propagating the first error. -/
def is_valid (dh : DiffieHellman) : Except DHError Unit :=
  match is_prime dh.p with
  | .error e => .error e
  | .ok () =>
    match is_primitive_root dh.p dh.g with
    | .error e => .error e
    | .ok () => .ok ()

/-- Public-value computation `calculate_pub_x`: consumes the exchange and
returns it with `x = Some(g.pow(secret) % p)` (`pow` wraps at `2 ^ 32`).
All other fields are copied unchanged. -/
def calculate_pub_x (dh : DiffieHellman) (secret : Nat) : DiffieHellman :=
  { dh with x := some (dh.g ^ secret % 2 ^ 32 % dh.p) }

/-- Public-value computation `calculate_pub_y`: consumes the exchange and
returns it with `y = Some(g.pow(secret) % p)` (`pow` wraps at `2 ^ 32`).
All other fields are copied unchanged. -/
def calculate_pub_y (dh : DiffieHellman) (secret : Nat) : DiffieHellman :=
  { dh with y := some (dh.g ^ secret % 2 ^ 32 % dh.p) }

/-- Shared-secret computation `shared_secret_a`: requires the counterparty
value `y`; returns
`y.pow(secret) % p` (`pow` wraps at `2 ^ 32`), or `Err(SecretNotComputed)`
when `y` is absent. -/
def shared_secret_a (dh : DiffieHellman) (secret : Nat) : Except DHError Nat :=
  match dh.y with
  | some y => .ok (y ^ secret % 2 ^ 32 % dh.p)
  | none => .error .SecretNotComputed

/-- Shared-secret computation `shared_secret_b`: requires the counterparty
value `x`; returns
`x.pow(secret) % p` (`pow` wraps at `2 ^ 32`), or `Err(SecretNotComputed)`
when `x` is absent. -/
def shared_secret_b (dh : DiffieHellman) (secret : Nat) : Except DHError Nat :=
  match dh.x with
  | some x => .ok (x ^ secret % 2 ^ 32 % dh.p)
  | none => .error .SecretNotComputed

end DiffieHellman

/-- Mutating operations of the exchange API: the two public-value
computations are the only operations that produce a new exchange state
(`is_valid` and the shared-secret computations borrow the state without
changing it). -/
inductive Op where
  | pubX : Nat → Op
  | pubY : Nat → Op

/-- Application of one mutating operation to an exchange state. -/
def applyOp (dh : DiffieHellman) (op : Op) : DiffieHellman :=
  match op with
  | .pubX s => dh.calculate_pub_x s
  | .pubY s => dh.calculate_pub_y s

/-- Application of a whole sequence of mutating operations, left to
right. -/
def runOps (dh : DiffieHellman) : List Op → DiffieHellman
  | [] => dh
  | op :: rest => runOps (applyOp dh op) rest

/-- Bounded-depth divide-and-conquer trial division, used to certify by
evaluation that a number has no divisor in an arithmetic progression:
`noFacD n d lo step len` checks `n % (lo + step * j) ≠ 0` for every
`j < len`, splitting the range in half `d` times (the depth keeps kernel
reduction shallow).  When the depth is exhausted on a block of two or
more candidates the checker answers `false`, so `true` answers are
always trustworthy. -/
def noFacD (n : Nat) : Nat → Nat → Nat → Nat → Bool
  | 0, lo, _, len =>
      match len with
      | 0 => true
      | 1 => decide (n % lo ≠ 0)
      | _ => false
  | d + 1, lo, step, len =>
      match len with
      | 0 => true
      | 1 => decide (n % lo ≠ 0)
      | _ =>
        noFacD n d lo step (len / 2) &&
          noFacD n d (lo + step * (len / 2)) step (len - len / 2)

open DiffieHellman

/-- Soundness of the divide-and-conquer checker: a `true` answer rules out
every divisor in the covered progression. -/
theorem noFacD_sound (n : Nat) :
    ∀ d lo step len, noFacD n d lo step len = true →
      ∀ j, j < len → ¬ (lo + step * j) ∣ n := by
  intro d
  induction d with
  | zero =>
    intro lo step len h j hj hdvd
    match len, hj with
    | 1, _ =>
      have hj0 : j = 0 := by omega
      subst hj0
      simp only [noFacD, decide_eq_true_eq] at h
      rcases hdvd with ⟨c, hc⟩
      rw [Nat.mul_comm] at hc
      rw [Nat.mul_zero, Nat.add_zero] at hc
      exact h (by rw [hc, Nat.mul_mod_left])
    | l + 2, _ =>
      simp only [noFacD] at h
      exact absurd h (by simp)
  | succ d ih =>
    intro lo step len h j hj hdvd
    match len, hj with
    | 1, _ =>
      have hj0 : j = 0 := by omega
      subst hj0
      simp only [noFacD, decide_eq_true_eq] at h
      rcases hdvd with ⟨c, hc⟩
      rw [Nat.mul_comm] at hc
      rw [Nat.mul_zero, Nat.add_zero] at hc
      exact h (by rw [hc, Nat.mul_mod_left])
    | l + 2, _ =>
      simp only [noFacD, Bool.and_eq_true] at h
      rcases Nat.lt_or_ge j ((l + 2) / 2) with hc | hc
      · exact ih lo step ((l + 2) / 2) h.1 j hc hdvd
      · have hsplit : lo + step * j =
            lo + step * ((l + 2) / 2) + step * (j - (l + 2) / 2) := by
          have hj' : (l + 2) / 2 + (j - (l + 2) / 2) = j := by omega
          rw [Nat.add_assoc, ← Nat.mul_add, hj']
        rw [hsplit] at hdvd
        exact ih (lo + step * ((l + 2) / 2)) step ((l + 2) - (l + 2) / 2) h.2
          (j - (l + 2) / 2) (by omega) hdvd

set_option maxHeartbeats 40000000 in
/-- Exhaustive check by evaluation: 4294967291 has no odd divisor between
3 and 65535. -/
theorem noFac_odd : noFacD 4294967291 16 3 2 32767 = true := by decide

/-- The number 4294967291 has no divisor in `[2, 65535]`. -/
theorem no_small_factor : ∀ i, 2 ≤ i → i ≤ 65535 → ¬ i ∣ 4294967291 := by
  intro i h2 h65 hdvd
  rcases Nat.even_or_odd i with he | ho
  · rcases he with ⟨k, hk⟩
    have h2d : (2 : Nat) ∣ 4294967291 := Dvd.dvd.trans ⟨k, by omega⟩ hdvd
    rcases h2d with ⟨c, hc⟩
    omega
  · rcases ho with ⟨k, hk⟩
    have hj : i = 3 + 2 * ((i - 3) / 2) := by omega
    rw [hj] at hdvd
    exact noFacD_sound 4294967291 16 3 2 32767 noFac_odd ((i - 3) / 2) (by omega) hdvd

/-- The number 4294967291 has no proper divisor at all: any factorisation
must have one factor below the square root. -/
theorem not_dvd_big : ∀ i, 2 ≤ i → i < 4294967291 → ¬ i ∣ 4294967291 := by
  intro i h2 hlt hdvd
  rcases le_or_lt i 65535 with hs | hb
  · exact no_small_factor i h2 hs hdvd
  · rcases hdvd with ⟨c, hc⟩
    have hc0 : c ≠ 0 := by rintro rfl; simp at hc
    have hc1 : c ≠ 1 := by rintro rfl; omega
    have hcs : c ≤ 65535 := by
      by_contra hcb
      push_neg at hcb
      have h1 : (65536 : Nat) * 65536 ≤ i * c := Nat.mul_le_mul (by omega) (by omega)
      rw [← hc] at h1
      norm_num at h1
    exact no_small_factor c (by omega) hcs ⟨i, by rw [hc, Nat.mul_comm]⟩

/-- The largest `u32` prime: 4294967291 is prime. -/
theorem prime_big : Nat.Prime 4294967291 := by
  refine Nat.prime_def_lt.mpr ⟨by norm_num, ?_⟩
  intro m hm hdvd
  rcases m with _ | _ | m
  · exact absurd (Nat.eq_zero_of_zero_dvd hdvd) (by norm_num)
  · rfl
  · exact absurd hdvd (not_dvd_big _ (by omega) hm)

/-- Squares modulo 16 only take the values 0, 1, 4 and 9. -/
theorem sq_mod_sixteen (m : Nat) :
    m * m % 16 = 0 ∨ m * m % 16 = 1 ∨ m * m % 16 = 4 ∨ m * m % 16 = 9 := by
  have hmm : m * m % 16 = m % 16 * (m % 16) % 16 := by
    rw [Nat.mul_mod]
  have h : m % 16 < 16 := Nat.mod_lt _ (by norm_num)
  set r := m % 16 with hr
  interval_cases r <;> rw [hmm] <;> decide

/-- A wrapped square can never land in the top four residues below
`2 ^ 32`: the guard `i * i % 2 ^ 32 ≤ 4294967291` of the trial-division
loop is satisfied by every `i`. -/
theorem sq_mod_u32_le (i : Nat) : i * i % 2 ^ 32 ≤ 4294967291 := by
  have h1 : i * i % 2 ^ 32 < 2 ^ 32 := Nat.mod_lt _ (by norm_num)
  have h2 : i * i % 2 ^ 32 % 16 = i * i % 16 := Nat.mod_mod_of_dvd _ (by norm_num)
  have h3 := sq_mod_sixteen i
  omega

/-- On input 4294967291 the trial-division loop never exits through its
guard: it walks all the way to `i = n` and then reports `n % n = 0`,
returning `InvalidP` for a prime input. -/
theorem isPrimeLoop_big :
    ∀ fuel i, fuel + i = 4294967291 → 2 ≤ i →
      isPrimeLoop 4294967291 i fuel = .error .InvalidP := by
  intro fuel
  induction fuel with
  | zero =>
    intro i hfi h2
    have hi : i = 4294967291 := by omega
    subst hi
    decide
  | succ f ih =>
    intro i hfi h2
    have hlt : i < 4294967291 := by omega
    have hmod : ¬ 4294967291 % i = 0 := by
      intro h0
      exact not_dvd_big i h2 hlt (Nat.dvd_iff_mod_eq_zero.mpr h0)
    simp only [isPrimeLoop]
    rw [if_pos (sq_mod_u32_le i), if_neg hmod]
    exact ih (i + 1) (by omega) (by omega)

/-- Unfolding of `is_prime` to its loop for inputs of the default match
arm. -/
theorem is_prime_eq_loop (m : Nat) :
    is_prime (m + 3) = isPrimeLoop (m + 3) 2 (m + 1) := rfl

/-- Evaluation of the primality check at the largest `u32` prime: the
wrapped guard makes the check reject it. -/
theorem is_prime_big : is_prime 4294967291 = .error .InvalidP := by
  have h := is_prime_eq_loop 4294967288
  norm_num at h
  rw [h]
  exact isPrimeLoop_big 4294967289 2 (by norm_num) (by norm_num)

/-- Dichotomy of the trial-division loop: it either succeeds or reports
`InvalidP`. -/
theorem isPrimeLoop_ok_or (n : Nat) :
    ∀ fuel i, isPrimeLoop n i fuel = .ok () ∨ isPrimeLoop n i fuel = .error .InvalidP := by
  intro fuel
  induction fuel with
  | zero =>
    intro i
    simp only [isPrimeLoop]
    split
    · split
      · right; rfl
      · left; rfl
    · left; rfl
  | succ f ih =>
    intro i
    simp only [isPrimeLoop]
    split
    · split
      · right; rfl
      · exact ih (i + 1)
    · left; rfl

/-- Dichotomy of the primality check: it either succeeds or reports
`InvalidP`. -/
theorem is_prime_ok_or (n : Nat) :
    is_prime n = .ok () ∨ is_prime n = .error .InvalidP :=
  match n with
  | 0 => .inr rfl
  | 1 => .inr rfl
  | 2 => .inl rfl
  | m + 3 => isPrimeLoop_ok_or (m + 3) (m + 1) 2

/-- Characterisation of the trial-division loop on the overflow-free
range: as long as the loop counter stays below 65536 the wrapped guard
agrees with the true product, and the loop succeeds exactly when no
remaining candidate divisor at most the square root divides `n`. -/
theorem isPrimeLoop_ok_iff (n : Nat) (hn : n < 65535 * 65535) :
    ∀ fuel i, 2 ≤ i → i ≤ 65535 → fuel + i = n →
      (isPrimeLoop n i fuel = .ok () ↔ ∀ j, i ≤ j → j * j ≤ n → ¬ j ∣ n) := by
  intro fuel
  induction fuel with
  | zero =>
    intro i h2 h65 hfi
    have hi : i = n := by omega
    have hii32 : i * i < 2 ^ 32 := by
      have h := Nat.mul_le_mul h65 h65
      omega
    have hno : ¬ (i * i % 2 ^ 32 ≤ n) := by
      rw [Nat.mod_eq_of_lt hii32]
      have h := Nat.mul_le_mul_left i h2
      omega
    simp only [isPrimeLoop]
    rw [if_neg hno]
    constructor
    · intro _ j hij hjj hdvd
      have h2j : 2 ≤ j := by omega
      have h := Nat.mul_le_mul_left j h2j
      omega
    · intro _; rfl
  | succ f ih =>
    intro i h2 h65 hfi
    have hii32 : i * i < 2 ^ 32 := by
      have h := Nat.mul_le_mul h65 h65
      omega
    simp only [isPrimeLoop]
    rw [Nat.mod_eq_of_lt hii32]
    by_cases hguard : i * i ≤ n
    · rw [if_pos hguard]
      by_cases hd : n % i = 0
      · rw [if_pos hd]
        constructor
        · intro h; exact absurd h (by decide)
        · intro hall
          exact absurd (Nat.dvd_iff_mod_eq_zero.mpr hd) (hall i (Nat.le_refl i) hguard)
      · rw [if_neg hd]
        have h65' : i + 1 ≤ 65535 := by
          by_contra hb
          push_neg at hb
          have h := Nat.mul_le_mul (show 65535 ≤ i by omega) (show 65535 ≤ i by omega)
          omega
        rw [ih (i + 1) (by omega) h65' (by omega)]
        constructor
        · intro hall j hij hjj hdvd
          rcases Nat.eq_or_lt_of_le hij with heq | hlt'
          · exact hd (heq ▸ Nat.dvd_iff_mod_eq_zero.mp hdvd)
          · exact hall j hlt' hjj hdvd
        · intro hall j hij hjj hdvd
          exact hall j (by omega) hjj hdvd
    · rw [if_neg hguard]
      constructor
      · intro _ j hij hjj hdvd
        have h := Nat.mul_le_mul hij hij
        omega
      · intro _; rfl

/-- Characterisation of `is_prime` on the overflow-free range: for
`3 ≤ n < 65535 * 65535` it succeeds exactly when no `j` with `j * j ≤ n`
divides `n`. -/
theorem is_prime_ok_iff (n : Nat) (h3 : 3 ≤ n) (hn : n < 65535 * 65535) :
    is_prime n = .ok () ↔ ∀ j, 2 ≤ j → j * j ≤ n → ¬ j ∣ n := by
  match n, h3 with
  | m + 3, _ =>
    rw [is_prime_eq_loop m]
    exact isPrimeLoop_ok_iff (m + 3) hn (m + 1) 2 (by omega) (by omega) (by omega)

/-- Dichotomy of the primitive-root loop: it either succeeds or reports
`InvalidG`. -/
theorem primRootGo_ok_or (p g : Nat) :
    ∀ l res, primRootGo p g res l = .ok () ∨ primRootGo p g res l = .error .InvalidG := by
  intro l
  induction l with
  | nil => intro res; left; rfl
  | cons i rest ih =>
    intro res
    simp only [primRootGo]
    split
    · right; rfl
    · exact ih _

/-- Characterisation of the primitive-root loop: it succeeds exactly when
the values computed for the remaining indices are pairwise distinct and
all avoid the set of values already recorded. -/
theorem primRootGo_ok_iff (p g : Nat) :
    ∀ l res, primRootGo p g res l = .ok () ↔
      ((l.map fun i => i ^ g % 2 ^ 32 % p).Nodup ∧
        ∀ x ∈ l, (x ^ g % 2 ^ 32 % p) ∉ res) := by
  intro l
  induction l with
  | nil => intro res; simp [primRootGo]
  | cons i rest ih =>
    intro res
    simp only [primRootGo]
    cases hc : res.contains (i ^ g % 2 ^ 32 % p) with
    | true =>
      have hmem : (i ^ g % 2 ^ 32 % p) ∈ res := List.elem_iff.mp hc
      rw [if_pos rfl]
      constructor
      · intro h; exact Except.noConfusion h
      · rintro ⟨-, hall⟩
        exact absurd hmem (hall i (List.mem_cons_self i rest))
    | false =>
      have hnmem : (i ^ g % 2 ^ 32 % p) ∉ res := by
        intro hm
        have hc' : List.elem (i ^ g % 2 ^ 32 % p) res = false := hc
        rw [List.elem_eq_true_of_mem hm] at hc'
        exact Bool.noConfusion hc'
      rw [if_neg (by decide)]
      rw [ih]
      simp only [List.map_cons, List.nodup_cons, List.mem_cons, not_or, List.mem_map]
      constructor
      · rintro ⟨hnd, hall⟩
        refine ⟨⟨?_, hnd⟩, ?_⟩
        · rintro ⟨x, hx, hfx⟩
          exact (hall x hx).1 hfx
        · rintro x (rfl | hx)
          · exact hnmem
          · exact (hall x hx).2
      · rintro ⟨⟨hni, hnd⟩, hall⟩
        refine ⟨hnd, ?_⟩
        intro x hx
        exact ⟨fun hfx => hni ⟨x, hx, hfx⟩, (hall x (Or.inr hx))⟩

/-- Success of `is_primitive_root` means the mapped value list over
`[1, p - 1]` has no duplicate. -/
theorem is_primitive_root_ok_iff (p g : Nat) :
    is_primitive_root p g = .ok () ↔
      ((List.range' 1 (p - 1)).map fun i => i ^ g % 2 ^ 32 % p).Nodup := by
  rw [show is_primitive_root p g = primRootGo p g [] (List.range' 1 (p - 1)) from rfl]
  rw [primRootGo_ok_iff]
  simp

/-- Success of `is_primitive_root` expressed as injectivity of the value
map on the index interval `[1, p - 1]`. -/
theorem is_primitive_root_inj_iff (p g : Nat) :
    is_primitive_root p g = .ok () ↔
      ∀ i j, 1 ≤ i → i < p → 1 ≤ j → j < p →
        i ^ g % 2 ^ 32 % p = j ^ g % 2 ^ 32 % p → i = j := by
  rw [is_primitive_root_ok_iff]
  rw [List.nodup_map_iff_inj_on (List.nodup_range' 1 (p - 1))]
  constructor
  · intro h i j h1i hip h1j hjp heq
    exact h i (List.mem_range'_1.mpr ⟨h1i, by omega⟩)
      j (List.mem_range'_1.mpr ⟨h1j, by omega⟩) heq
  · intro h x hx y hy heq
    rw [List.mem_range'_1] at hx hy
    exact h x y hx.1 (by omega) hy.1 (by omega) heq

/-- Dichotomy of the primitive-root check: it either succeeds or reports
`InvalidG`. -/
theorem is_primitive_root_ok_or (p g : Nat) :
    is_primitive_root p g = .ok () ∨ is_primitive_root p g = .error .InvalidG :=
  primRootGo_ok_or p g (List.range' 1 (p - 1)) []

/-- Success of `is_valid` means both sub-checks succeed. -/
theorem is_valid_ok_iff (dh : DiffieHellman) :
    is_valid dh = .ok () ↔
      (is_prime dh.p = .ok () ∧ is_primitive_root dh.p dh.g = .ok ()) := by
  constructor
  · intro h
    unfold is_valid at h
    rcases is_prime_ok_or dh.p with hp | hp <;> rw [hp] at h
    · rcases is_primitive_root_ok_or dh.p dh.g with hg | hg <;> rw [hg] at h
      · exact ⟨hp, hg⟩
      · exact Except.noConfusion h
    · exact Except.noConfusion h
  · rintro ⟨hp, hg⟩
    unfold is_valid
    rw [hp, hg]

/-- When the primality check fails, `is_valid` reports `InvalidP` without
consulting the generator. -/
theorem is_valid_of_prime_not_ok {dh : DiffieHellman} (h : is_prime dh.p ≠ .ok ()) :
    is_valid dh = .error .InvalidP := by
  rcases is_prime_ok_or dh.p with hp | hp
  · exact absurd hp h
  · unfold is_valid
    rw [hp]

/-- When the primality check succeeds, `is_valid` is exactly the
primitive-root check. -/
theorem is_valid_of_prime_ok {dh : DiffieHellman} (h : is_prime dh.p = .ok ()) :
    is_valid dh = is_primitive_root dh.p dh.g := by
  unfold is_valid
  rw [h]
  rcases is_primitive_root_ok_or dh.p dh.g with hg | hg <;> rw [hg]

/-- Any sequence of public-value computations leaves `p` and `g`
untouched and never turns a present public value back into an absent
one. -/
theorem runOps_fields (ops : List Op) : ∀ dh : DiffieHellman,
    (runOps dh ops).p = dh.p ∧ (runOps dh ops).g = dh.g ∧
    (dh.x.isSome → (runOps dh ops).x.isSome) ∧
    (dh.y.isSome → (runOps dh ops).y.isSome) := by
  induction ops with
  | nil => intro dh; exact ⟨rfl, rfl, fun h => h, fun h => h⟩
  | cons op rest ih =>
    intro dh
    rcases op with s | s
    · rcases ih (dh.calculate_pub_x s) with ⟨hp, hg, hx, hy⟩
      exact ⟨hp, hg, fun _ => hx rfl, fun h => hy h⟩
    · rcases ih (dh.calculate_pub_y s) with ⟨hp, hg, hx, hy⟩
      exact ⟨hp, hg, fun h => hx h, fun _ => hy rfl⟩

/-- C1, counterexample.  The claim promises that for every valid pair and
matching secrets the two shared secrets agree and equal
`generator ^ (secretA * secretB) mod modulus` in true modular
arithmetic.  For the valid pair `(23, 5)` with secrets `6` and `15` the
power `5 ^ 15` wraps around `2 ^ 32`, the two shared secrets come out as
`2` and `0`, and the `B` side differs from the true value `2`. -/
theorem C1_shared_secret_counterexample :
    is_valid (new 23 5) = .ok () ∧
    shared_secret_a (calculate_pub_y (calculate_pub_x (new 23 5) 6) 15) 6 = .ok 2 ∧
    shared_secret_b (calculate_pub_y (calculate_pub_x (new 23 5) 6) 15) 15 = .ok 0 ∧
    5 ^ (6 * 15) % 23 = 2 ∧
    shared_secret_b (calculate_pub_y (calculate_pub_x (new 23 5) 6) 15) 15 ≠
      shared_secret_a (calculate_pub_y (calculate_pub_x (new 23 5) 6) 15) 6 := by
  decide

/-- C1, amended.  For every pair of secrets and every exchange whose
`(modulus, generator)` passes `is_valid`, provided none of the four
exponentiations overflows the `u32` range, both shared-secret
computations succeed and return
`generator ^ (secretA * secretB) mod modulus` in true modular
arithmetic. -/
theorem C1_shared_secret_no_overflow (p g a b : Nat)
    (hvalid : is_valid (new p g) = .ok ())
    (ha : g ^ a < 2 ^ 32) (hb : g ^ b < 2 ^ 32)
    (hya : (g ^ b % p) ^ a < 2 ^ 32) (hxb : (g ^ a % p) ^ b < 2 ^ 32) :
    shared_secret_a (calculate_pub_y (calculate_pub_x (new p g) a) b) a
        = .ok (g ^ (a * b) % p) ∧
    shared_secret_b (calculate_pub_y (calculate_pub_x (new p g) a) b) b
        = .ok (g ^ (a * b) % p) := by
  simp only [new, calculate_pub_x, calculate_pub_y, shared_secret_a, shared_secret_b]
  simp only [Nat.mod_eq_of_lt ha, Nat.mod_eq_of_lt hb]
  rw [Nat.mod_eq_of_lt hya, Nat.mod_eq_of_lt hxb]
  constructor
  · rw [← Nat.pow_mod, ← Nat.pow_mul, Nat.mul_comm b a]
  · rw [← Nat.pow_mod, ← Nat.pow_mul]

/-- C1, witness for the amended theorem at `p = 23`, `g = 5`, `a = 2`,
`b = 3`. -/
theorem C1_shared_secret_no_overflow_witness :
    shared_secret_a (calculate_pub_y (calculate_pub_x (new 23 5) 2) 3) 2
        = .ok (5 ^ (2 * 3) % 23) ∧
    shared_secret_b (calculate_pub_y (calculate_pub_x (new 23 5) 2) 3) 3
        = .ok (5 ^ (2 * 3) % 23) :=
  C1_shared_secret_no_overflow 23 5 2 3 (by decide) (by decide) (by decide)
    (by decide) (by decide)

/-- C2, counterexample.  The claim predicts `publicB = 19`, both shared
secrets `2` and no fixed-width overflow; in fact `5 ^ 15` exceeds
`2 ^ 32`, `publicB` is not `19`, and the `B`-side shared secret is not
`2`. -/
theorem C2_roundtrip_counterexample :
    (calculate_pub_y (calculate_pub_x (new 23 5) 6) 15).y ≠ some 19 ∧
    shared_secret_b (calculate_pub_y (calculate_pub_x (new 23 5) 6) 15) 15 ≠ .ok 2 ∧
    2 ^ 32 ≤ 5 ^ 15 := by
  decide

/-- C2, amended.  For modulus 23, generator 5, secrets 6 and 15 the code
computes `publicA = 8`, `publicB = 4` (the power `5 ^ 15` wraps at
`2 ^ 32`), `sharedSecretA = 2` and `sharedSecretB = 0`: overflow does
occur and the two shared secrets disagree. -/
theorem C2_roundtrip_actual_values :
    (calculate_pub_x (new 23 5) 6).x = some 8 ∧
    (calculate_pub_y (calculate_pub_x (new 23 5) 6) 15).y = some 4 ∧
    shared_secret_a (calculate_pub_y (calculate_pub_x (new 23 5) 6) 15) 6 = .ok 2 ∧
    shared_secret_b (calculate_pub_y (calculate_pub_x (new 23 5) 6) 15) 15 = .ok 0 := by
  decide

/-- C3.  For every exchange and secret, `shared_secret_a` fails with the
missing-public-value error (`SecretNotComputed` in the source) exactly
when `y` is absent, and otherwise returns `y ^ secret mod p` in the
wrapping `u32` arithmetic; symmetrically for `shared_secret_b` and
`x`. -/
theorem C3_public_value_missing (ex : DiffieHellman) (s : Nat) :
    (shared_secret_a ex s = .error .SecretNotComputed ↔ ex.y = none) ∧
    (∀ v, ex.y = some v → shared_secret_a ex s = .ok (v ^ s % 2 ^ 32 % ex.p)) ∧
    (shared_secret_b ex s = .error .SecretNotComputed ↔ ex.x = none) ∧
    (∀ v, ex.x = some v → shared_secret_b ex s = .ok (v ^ s % 2 ^ 32 % ex.p)) := by
  rcases ex with ⟨p, g, x, y⟩
  refine ⟨?_, ?_, ?_, ?_⟩
  · cases y <;> simp [shared_secret_a]
  · intro v hv
    simp only at hv
    subst hv
    rfl
  · cases x <;> simp [shared_secret_b]
  · intro v hv
    simp only at hv
    subst hv
    rfl

/-- C3, witness: before `y` is computed the `A` side fails; once `y` is
present it returns the wrapped power. -/
theorem C3_public_value_missing_witness :
    shared_secret_a (new 23 5) 6 = .error .SecretNotComputed ∧
    shared_secret_a (calculate_pub_y (new 23 5) 3) 2 = .ok 8 :=
  ⟨(C3_public_value_missing (new 23 5) 6).1.mpr rfl,
   (C3_public_value_missing (calculate_pub_y (new 23 5) 3) 2).2.1 10 (by decide)⟩

/-- C4.  `is_valid` succeeds exactly when both sub-checks succeed; when
the modulus fails the primality check the reported error is `InvalidP`,
whatever the generator; and when the modulus passes, the result is
exactly the primitive-root check, so the two checks run in that order
with short-circuiting. -/
theorem C4_is_valid_short_circuit (ex : DiffieHellman) :
    (is_valid ex = .ok () ↔
      (is_prime ex.p = .ok () ∧ is_primitive_root ex.p ex.g = .ok ())) ∧
    (is_prime ex.p ≠ .ok () → is_valid ex = .error .InvalidP) ∧
    (is_prime ex.p = .ok () → is_valid ex = is_primitive_root ex.p ex.g) :=
  ⟨is_valid_ok_iff ex, fun h => is_valid_of_prime_not_ok h, fun h => is_valid_of_prime_ok h⟩

/-- C4, witness: for the exchange `(4, 0)` the generator would also fail
its own test, yet `is_valid` reports `InvalidP`, not `InvalidG`. -/
theorem C4_is_valid_short_circuit_witness :
    is_primitive_root 4 0 = .error .InvalidG ∧
      is_valid (new 4 0) = .error .InvalidP :=
  ⟨by decide, (C4_is_valid_short_circuit (new 4 0)).2.1 (by decide)⟩

/-- C5, counterexample.  The claim characterises `is_prime` for every
unsigned integer by divisors up to the square root; at the `u32` prime
4294967291 there is no such divisor, yet the code reports `InvalidP`,
because the loop guard `i * i` wraps at `2 ^ 32`. -/
theorem C5_check_prime_counterexample :
    Nat.Prime 4294967291 ∧ is_prime 4294967291 = .error .InvalidP :=
  ⟨prime_big, is_prime_big⟩

/-- C5, amended.  `is_prime` rejects 0 and 1 and accepts 2; and for
`3 ≤ n` below `65535 * 65535` (the range in which the guard `i * i`
cannot wrap) it succeeds exactly when no `i` in `[2, Nat.sqrt n]`
divides `n`.  Outside that range the characterisation fails, as the
counterexample 4294967291 shows. -/
theorem C5_check_prime_amended (n : Nat) (hn : n < 65535 * 65535) :
    (is_prime 0 = .error .InvalidP ∧ is_prime 1 = .error .InvalidP ∧
      is_prime 2 = .ok ()) ∧
    (3 ≤ n → (is_prime n = .ok () ↔ ∀ i, 2 ≤ i → i ≤ Nat.sqrt n → ¬ i ∣ n)) := by
  refine ⟨⟨rfl, rfl, rfl⟩, ?_⟩
  intro h3
  rw [is_prime_ok_iff n h3 hn]
  constructor
  · intro h i h2 hsq
    exact h i h2 (Nat.le_sqrt.mp hsq)
  · intro h j h2 hjj
    exact h j h2 (Nat.le_sqrt.mpr hjj)

/-- C5, witness for the amended theorem at `n = 13`. -/
theorem C5_check_prime_amended_witness :
    is_prime 2 = .ok () ∧ is_prime 13 = .ok () := by
  have h := C5_check_prime_amended 13 (by norm_num)
  refine ⟨h.1.2.2, (h.2 (by norm_num)).mpr ?_⟩
  intro i h2 hii
  have hii' : i * i ≤ 13 := Nat.le_sqrt.mp hii
  have h4 : i < 4 := by
    by_contra hb
    push_neg at hb
    have hmul := Nat.mul_le_mul hb hb
    omega
  interval_cases i <;> decide

/-- C6.  `is_primitive_root p g` walks the indices `i ∈ [1, p - 1]`
computing `i ^ g mod p` in wrapping `u32` arithmetic (base is the loop
index, exponent is the generator): it succeeds exactly when these
`p - 1` values are pairwise distinct, and otherwise — the moment a value
repeats — it reports `InvalidG`. -/
theorem C6_collision_test (p g : Nat) :
    (is_primitive_root p g = .ok () ↔
      ∀ i j, 1 ≤ i → i < p → 1 ≤ j → j < p →
        i ^ g % 2 ^ 32 % p = j ^ g % 2 ^ 32 % p → i = j) ∧
    (is_primitive_root p g ≠ .ok () → is_primitive_root p g = .error .InvalidG) := by
  refine ⟨is_primitive_root_inj_iff p g, ?_⟩
  intro h
  rcases is_primitive_root_ok_or p g with h' | h'
  · exact absurd h' h
  · exact h'

/-- C6, witness at the colliding pair `(7, 3)`. -/
theorem C6_collision_test_witness : is_primitive_root 7 3 = .error .InvalidG :=
  (C6_collision_test 7 3).2 (by decide)

/-- C7, counterexample.  The claim says `checkPrimitiveRoot(7, 3)`
succeeds; in fact the indices 1 and 2 both map to the residue 1
(`1 ^ 3 = 1` and `2 ^ 3 = 8 ≡ 1 mod 7`), so the check reports
`InvalidG`. -/
theorem C7_seven_three_counterexample :
    is_primitive_root 7 3 = .error .InvalidG := by
  decide

/-- C7, amended.  `checkPrimitiveRoot(7, 3)` fails with `InvalidG`
because indices 1 and 2 collide on the residue 1; and in general the
check fails for any pair where two distinct loop indices map to the same
residue. -/
theorem C7_seven_three_amended :
    is_primitive_root 7 3 = .error .InvalidG ∧
    (1 : Nat) ^ 3 % 2 ^ 32 % 7 = 2 ^ 3 % 2 ^ 32 % 7 ∧
    (∀ p g i j, 1 ≤ i → i < p → 1 ≤ j → j < p → i ≠ j →
      i ^ g % 2 ^ 32 % p = j ^ g % 2 ^ 32 % p →
      is_primitive_root p g = .error .InvalidG) := by
  refine ⟨by decide, by decide, ?_⟩
  intro p g i j h1i hip h1j hjp hne heq
  rcases is_primitive_root_ok_or p g with h | h
  · exact absurd ((is_primitive_root_inj_iff p g).mp h i j h1i hip h1j hjp heq) hne
  · exact h

/-- C7, witness for the amended theorem: the collision of indices 1 and 2
modulo 3 with generator 2 makes the check fail. -/
theorem C7_seven_three_amended_witness :
    is_primitive_root 3 2 = .error .InvalidG :=
  C7_seven_three_amended.2.2 3 2 1 2 (by decide) (by decide) (by decide)
    (by decide) (by decide) (by decide)

/-- C8.  Over every sequence of public-value computations the fields `p`
and `g` never change and a present `x` or `y` never becomes absent; and
each single computation sets exactly its own public value, leaving the
three other fields untouched. -/
theorem C8_state_monotone (dh : DiffieHellman) (ops : List Op) (s : Nat) :
    ((runOps dh ops).p = dh.p ∧ (runOps dh ops).g = dh.g) ∧
    ((dh.x.isSome → (runOps dh ops).x.isSome) ∧
      (dh.y.isSome → (runOps dh ops).y.isSome)) ∧
    ((calculate_pub_x dh s).x = some (dh.g ^ s % 2 ^ 32 % dh.p) ∧
      (calculate_pub_x dh s).p = dh.p ∧ (calculate_pub_x dh s).g = dh.g ∧
      (calculate_pub_x dh s).y = dh.y) ∧
    ((calculate_pub_y dh s).y = some (dh.g ^ s % 2 ^ 32 % dh.p) ∧
      (calculate_pub_y dh s).p = dh.p ∧ (calculate_pub_y dh s).g = dh.g ∧
      (calculate_pub_y dh s).x = dh.x) := by
  rcases runOps_fields ops dh with ⟨hp, hg, hx, hy⟩
  exact ⟨⟨hp, hg⟩, ⟨hx, hy⟩, ⟨rfl, rfl, rfl, rfl⟩, ⟨rfl, rfl, rfl, rfl⟩⟩

/-- C8, witness: once `x` is present it stays present across a later
`pubY`. -/
theorem C8_state_monotone_witness :
    (runOps (calculate_pub_x (new 23 5) 6) [Op.pubY 15]).x.isSome = true :=
  (C8_state_monotone (calculate_pub_x (new 23 5) 6) [Op.pubY 15] 0).2.1.1 (by decide)

/-- C9.  The claim asserts the guard `i * i` never overflows `u32` and
that `is_prime` classifies the prime 4294967291 correctly.  In fact at
`i = 65536` the product `i * i = 2 ^ 32` wraps to 0, the guard never
fails on this input, and the loop runs to `i = n`, where `n % n = 0`
makes the code report `InvalidP` for a prime. -/
theorem C9_guard_overflow :
    Nat.Prime 4294967291 ∧
    is_prime 4294967291 = .error .InvalidP ∧
    65536 * 65536 % 2 ^ 32 = 0 :=
  ⟨prime_big, is_prime_big, by decide⟩

/-- C10.  For modulus 2 every generator whatsoever is accepted:
`is_prime 2` succeeds, the primitive-root loop runs a single iteration
(index 1, value `1 ^ g mod 2 = 1`) which cannot collide, and so
`is_valid` succeeds on `new 2 g` for every `g`, including 0. -/
theorem C10_modulus_two_accepts_all (g : Nat) :
    is_prime 2 = .ok () ∧ is_primitive_root 2 g = .ok () ∧
      is_valid (new 2 g) = .ok () := by
  have hg : is_primitive_root 2 g = .ok () := by
    show primRootGo 2 g [] [1] = .ok ()
    simp [primRootGo, one_pow]
  exact ⟨rfl, hg, (@is_valid_of_prime_ok (new 2 g) rfl).trans hg⟩

/-- C10, witness at `g = 0`. -/
theorem C10_modulus_two_accepts_all_witness : is_valid (new 2 0) = .ok () :=
  (C10_modulus_two_accepts_all 0).2.2
